import Mathlib

/-!
Shallow embedding of the NOT_STISLA adaptive interpolation-search core
(src/src/not_stisla.c) and proofs of the specification claims.

Modelling conventions:
- `int64_t` values are `Int`; `size_t` indices and counters are `Nat`.
  `size_t` arithmetic is wrapped `% 2^64` exactly where the C code can wrap
  (`hi = pred + tol`, the `searches_performed` increment, and the
  `r_idx - l_idx` span inside the interpolator).  `2^64` and `2^63` appear
  as the literals 18446744073709551616 and 9223372036854775808.
- The C arrays are `List Int`; `arr[i]` is `List.getD arr i 0`.  Every read
  the C code performs is in bounds exactly when the corresponding `getD`
  index is below the list length; where the C code can read out of bounds
  (reading `anchors[a_idx + 1]` past `size`, or reading the searched array
  past `n`), the embedded engine returns an explicit `UB` error, because the
  C program has no defined result there.
- `NOT_STISLA_NOT_FOUND` (`(size_t)-1`) is `Option.none`; a found index `j`
  is `some j` (a found index is always `< n < 2^64 - 1`, so the sentinel
  never collides with a valid index).
- The interpolator's `__int128` intermediates are modelled by exact `Int`
  arithmetic with truncating division (`Int.tdiv`), which agrees with the C
  semantics whenever `|key_offset| < 2^64` and `span < 2^63` (then the
  product is `< 2^127`, so the `__int128` multiplication cannot overflow,
  and the clamped result fits `int64_t`); the theorems below only ever
  depend on the interpolator inside that regime.
- `malloc`/`realloc` are assumed to succeed (the spec treats allocation
  failure as "learning silently skipped"; no claim depends on it).
- The C loops are written with an explicit fuel argument that strictly
  exceeds the number of iterations the loop can perform (each loop shrinks
  the window `hi - lo` by at least one per iteration), so the fuelled
  function computes the same value the C loop does.
-/

namespace NotStisla

/-- Two to the 64, the modulus of `size_t` arithmetic. -/
def U64 : Nat := 18446744073709551616

/-- Two to the 63: indices and tolerances below this bound are exactly the
regime where the C casts and `__int128` arithmetic are overflow-free. -/
def U63 : Nat := 9223372036854775808

/-- Undefined behaviour the C engine can hit: reading `anchors[a_idx + 1]`
at or past the table's logical `size` (the memory is either past the
allocation or uninitialized), or running the local binary search over a
window whose upper end is at or past the array length. -/
inductive UB where
  | oobAnchorRead : UB
  | oobArrayRead : UB
deriving DecidableEq, Repr

/-- An anchor: `v` is the stored `int64_t` value, `i` the `size_t` index
(C struct `not_stisla_anchor_t`, fields `v` and `i`). -/
structure Anchor where
  v : Int
  i : Nat
deriving DecidableEq, Repr

/-- The anchor table (C struct `not_stisla_anchor_table`).  `capacity` is an
allocation detail with no observable effect (allocation is assumed to
succeed) and is not modelled; `anchors` holds the `size` live entries. -/
structure AnchorTable where
  anchors : List Anchor
  searches_performed : Nat
  workload_type : Int
deriving DecidableEq, Repr

/-- The state `not_stisla_anchor_table_create` produces: no anchors, zero
counter, `workload_type = -1`. -/
def emptyTable : AnchorTable := ⟨[], 0, -1⟩

/-- Read `anchors[n]`; the C code only does this in bounds (the engine's
out-of-bounds anchor read is modelled as `UB` before any `getA`). -/
def getA (anchors : List Anchor) (n : Nat) : Anchor :=
  anchors.getD n ⟨0, 0⟩

/-- The C `(pred > index) ? (pred - index) : (index - pred)`. -/
def natDiff (a b : Nat) : Nat := if a > b then a - b else b - a

/-- Simple linear scan of `count` elements starting at index `i`
(the C `for` loops in `not_stisla_chunked_search`). -/
def linScanGo (arr : List Int) (key : Int) : Nat → Nat → Option Nat
  | 0, _ => none
  | count + 1, i => if arr.getD i 0 = key then some i else linScanGo arr key count (i + 1)

/-- The chunk loop of `not_stisla_chunked_search`: `c` remaining chunks of
four, starting at index `base`; the four comparisons of one chunk are
checked in index order, as the C `cmp_results` array is. -/
def chunkGo (arr : List Int) (key : Int) : Nat → Nat → Option Nat
  | 0, _ => none
  | c + 1, base =>
    if arr.getD base 0 = key then some base
    else if arr.getD (base + 1) 0 = key then some (base + 1)
    else if arr.getD (base + 2) 0 = key then some (base + 2)
    else if arr.getD (base + 3) 0 = key then some (base + 3)
    else chunkGo arr key c (base + 4)

/-- C `not_stisla_chunked_search` (lines 55-91): for `n <= 4` a plain loop,
otherwise `n / 4` chunks of four followed by the remainder loop. -/
def not_stisla_chunked_search (arr : List Int) (key : Int) : Option Nat :=
  let n := arr.length
  if n ≤ 4 then linScanGo arr key n 0
  else
    let fc := n / 4
    match chunkGo arr key fc 0 with
    | some i => some i
    | none => linScanGo arr key (n - fc * 4) (fc * 4)

/-- Modelled from the spec (section 4.4 and claim C8): "behaviorally
equivalent to a linear scan returning the first matching index, or
NOT_FOUND if no element equals the key".  This is the spec-side definition
the chunked scan is compared against. -/
def specLinearScan (arr : List Int) (key : Int) : Option Nat :=
  match arr with
  | [] => none
  | a :: rest => if a = key then some 0 else (specLinearScan rest key).map (· + 1)

/-- The binary-search loop of `not_stisla_anchor_lower` (lines 125-133),
with fuel; `fuel > hi - lo` guarantees the fuelled function runs the loop
to completion exactly as the C `while` does. -/
def anchorLowerGo (anchors : List Anchor) (key : Int) : Nat → Nat → Nat → Nat
  | 0, lo, _ => lo
  | fuel + 1, lo, hi =>
    if lo + 1 < hi then
      if (getA anchors (lo + (hi - lo) / 2)).v ≤ key then
        anchorLowerGo anchors key fuel (lo + (hi - lo) / 2) hi
      else anchorLowerGo anchors key fuel lo (lo + (hi - lo) / 2)
    else lo

/-- C `not_stisla_anchor_lower` (lines 94-135): unrolled comparison chains
for 1-3 anchors, binary search otherwise.  Only the anchor list matters, so
the table argument is reduced to it. -/
def not_stisla_anchor_lower (anchors : List Anchor) (key : Int) : Nat :=
  if anchors.length = 0 then 0
  else
    let lo := 0
    let hi := anchors.length - 1
    match hi - lo with
    | 0 => if (getA anchors lo).v ≤ key then lo else 0
    | 1 =>
      if (getA anchors lo).v ≤ key then
        if (getA anchors hi).v ≤ key then hi else lo
      else 0
    | 2 =>
      if (getA anchors (lo + 1)).v ≤ key then
        if (getA anchors hi).v ≤ key then hi else lo + 1
      else if (getA anchors lo).v ≤ key then lo
      else 0
    | _ => anchorLowerGo anchors key (hi - lo + 1) lo hi

/-- C `not_stisla_interpolate` (lines 138-159).  `span` is the `size_t`
difference `r_idx - l_idx` (wrapping when `l_idx > r_idx`); the `__int128`
computation is exact `Int` arithmetic with C's truncating division.  The
dead second `range == 0` test of the C code is subsumed by the first. -/
def not_stisla_interpolate (l_val r_val : Int) (l_idx r_idx : Nat) (key : Int) : Int :=
  let span : Nat := if l_idx ≤ r_idx then r_idx - l_idx else U64 - (l_idx - r_idx)
  if r_val = l_val then (l_idx : Int)
  else
    let key_offset : Int := key - l_val
    let range : Int := r_val - l_val
    let frac : Int := Int.tdiv (key_offset * (span : Int)) range
    let result : Int := (l_idx : Int) + frac
    if result < 0 then 0
    else if result > (r_idx : Int) then (r_idx : Int)
    else result

/-- The binary-search loop of `not_stisla_local_search` (lines 169-181),
with fuel; `fuel ≥ hi - lo + 2` makes the fuelled loop complete. -/
def localGo (arr : List Int) (key : Int) : Nat → Nat → Nat → Option Nat
  | 0, _, _ => none
  | fuel + 1, lo, hi =>
    if lo ≤ hi then
      if arr.getD (lo + (hi - lo) / 2) 0 < key then
        localGo arr key fuel (lo + (hi - lo) / 2 + 1) hi
      else if key < arr.getD (lo + (hi - lo) / 2) 0 then
        if lo + (hi - lo) / 2 = 0 then none
        else localGo arr key fuel lo (lo + (hi - lo) / 2 - 1)
      else some (lo + (hi - lo) / 2)
    else none

/-- C `not_stisla_local_search` (lines 162-184): the fast bounds check uses
`lo >= hi` (not `lo > hi`), then a binary search confined to `[lo, hi]`. -/
def not_stisla_local_search (arr : List Int) (lo hi : Nat) (key : Int) : Option Nat :=
  if lo ≥ hi ∨ arr.getD lo 0 > key ∨ arr.getD hi 0 < key then none
  else localGo arr key (hi - lo + 2) lo hi

/-- The workload-dependent anchor cap (lines 194-209): the `switch` leaves
the default `NOT_STISLA_MAX_ANCHORS = 16` for any unlisted workload,
including the unconfigured `-1`. -/
def workloadMaxAnchors (wt : Int) : Nat :=
  if wt = 0 then 12
  else if wt = 1 then 8
  else if wt = 2 then 20
  else if wt = 3 then 16
  else 16

/-- The insertion of lines 222-237: find the first position whose value is
not `< value` and insert there (before any existing equal values). -/
def insertAnchorAt (anchors : List Anchor) (value : Int) (index : Nat) : List Anchor :=
  match anchors with
  | [] => [⟨value, index⟩]
  | a :: rest =>
    if a.v < value then a :: insertAnchorAt rest value index
    else ⟨value, index⟩ :: a :: rest

/-- C `not_stisla_learn_anchor` (lines 187-238) for a non-null table;
`realloc` is assumed to succeed (failure only skips learning). -/
def not_stisla_learn_anchor (t : AnchorTable) (value : Int) (index : Nat)
    (pred tol : Nat) : AnchorTable :=
  if natDiff pred index ≤ tol then t
  else if t.anchors.length ≥ workloadMaxAnchors t.workload_type then t
  else { t with anchors := insertAnchorAt t.anchors value index }

/-- The endpoint seeding of lines 261-273: a table with zero anchors gets
the array's first and last elements as its two anchors. -/
def seedTable (arr : List Int) (t : AnchorTable) : AnchorTable :=
  if t.anchors = [] then
    { t with anchors := [⟨arr.getD 0 0, 0⟩, ⟨arr.getD (arr.length - 1) 0, arr.length - 1⟩] }
  else t

/-- The window computation of lines 284-294: `lo = max(pred > tol ?
pred - tol : l.i, l.i)`, `hi = min(pred + tol, r.i)` with the `size_t`
wrap on `pred + tol`, and the reset to `[l.i, r.i]` when inverted. -/
def searchWindow (l r : Anchor) (pred tol : Nat) : Nat × Nat :=
  let lo0 := if tol < pred then pred - tol else l.i
  let lo1 := if l.i < lo0 then lo0 else l.i
  let hi0 := (pred + tol) % U64
  let hi1 := if hi0 < r.i then hi0 else r.i
  if hi1 < lo1 then (l.i, r.i) else (lo1, hi1)

/-- Lines 276-296 on an already-seeded anchor list: locate the bounding
anchors, interpolate, compute the window, run the local search.  Returns
the local-search result together with the prediction (needed by learning),
or the undefined behaviour the C code hits: reading `anchors[a_idx + 1]`
at or past `size`, or letting the local search's first comparisons read
the array at `hi ≥ n` (the local search touches `arr[lo]`, `arr[hi]` and
`arr[mid]` with `lo ≤ mid ≤ hi` only when `lo < hi`). -/
def searchCore (arr : List Int) (key : Int) (tol : Nat) (anchors : List Anchor) :
    Except UB (Option Nat × Nat) :=
  let a_idx := not_stisla_anchor_lower anchors key
  if anchors.length ≤ a_idx + 1 then .error .oobAnchorRead
  else
    let l := getA anchors a_idx
    let r := getA anchors (a_idx + 1)
    let pred := (not_stisla_interpolate l.v r.v l.i r.i key).toNat
    let w := searchWindow l r pred tol
    if w.1 < w.2 ∧ arr.length ≤ w.2 then .error .oobArrayRead
    else .ok (not_stisla_local_search arr w.1 w.2 key, pred)

/-- The `searches_performed++` of line 301, with the `size_t` wrap. -/
def bumpCounter (t : AnchorTable) : AnchorTable :=
  { t with searches_performed := (t.searches_performed + 1) % U64 }

/-- C `not_stisla_search` (lines 239-305).  `table = none` is a null table
pointer (the engine then uses an ephemeral table that is dropped);
`table = some t` returns the caller's table as mutated in place.  On a
found result with a caller-supplied table, learning and the counter
increment run (lines 299-302); on `NOT_FOUND` the caller's table keeps
only the seeding mutation. -/
def not_stisla_search (arr : List Int) (key : Int) (table : Option AnchorTable)
    (tol : Nat) : Except UB (Option Nat × Option AnchorTable) :=
  let n := arr.length
  if n = 0 then .ok (none, table)
  else if n < 32 then .ok (not_stisla_chunked_search arr key, table)
  else
    let t1 := seedTable arr (table.getD emptyTable)
    match searchCore arr key tol t1.anchors with
    | .error e => .error e
    | .ok (res, pred) =>
      match res, table with
      | some j, some _ =>
        .ok (some j, some (bumpCounter (not_stisla_learn_anchor t1 (arr.getD j 0) j pred tol)))
      | r2, some _ => .ok (r2, some t1)
      | r2, none => .ok (r2, none)

/-- Sortedness of the searched array, the documented precondition. -/
def sortedLE (arr : List Int) : Prop := List.Chain' (· ≤ ·) arr

instance (arr : List Int) : Decidable (sortedLE arr) :=
  inferInstanceAs (Decidable (List.Chain' (· ≤ ·) arr))

/-- Executable sortedness check used to discharge concrete `sortedLE`
goals (the `List.Chain'` instance does not reduce in the kernel). -/
def chainLEb : List Int → Bool
  | [] => true
  | [_] => true
  | a :: b :: rest => decide (a ≤ b) && chainLEb (b :: rest)

/-- The anchor ordering the spec asserts: strictly ascending by value. -/
def strictSortedAnchors (anchors : List Anchor) : Prop :=
  List.Chain' (fun a b => a.v < b.v) anchors

instance (anchors : List Anchor) : Decidable (strictSortedAnchors anchors) :=
  inferInstanceAs (Decidable (List.Chain' (fun a b : Anchor => a.v < b.v) anchors))

/-- The non-strict anchor ordering the code actually maintains. -/
def sortedAnchors (anchors : List Anchor) : Prop :=
  List.Chain' (fun a b => a.v ≤ b.v) anchors

instance (anchors : List Anchor) : Decidable (sortedAnchors anchors) :=
  inferInstanceAs (Decidable (List.Chain' (fun a b : Anchor => a.v ≤ b.v) anchors))

instance : IsTrans Anchor (fun a b => a.v < b.v) :=
  ⟨fun _ _ _ h1 h2 => lt_trans h1 h2⟩

instance : IsTrans Anchor (fun a b => a.v ≤ b.v) :=
  ⟨fun _ _ _ h1 h2 => le_trans h1 h2⟩

/-- Table states reachable through the public operations: creation,
reset, workload configuration (`not_stisla_init_for_dsmil`), and searches
(batch search is a sequence of single searches against the same table).
Search steps carry the documented precondition that the array is sorted
ascending, and the physical `size_t` bound on its length; a search that
hits undefined behaviour yields no defined successor state. -/
inductive Reachable : AnchorTable → Prop where
  | create : Reachable emptyTable
  | reset (t : AnchorTable) : Reachable t →
      Reachable ⟨[], 0, t.workload_type⟩
  | configure (t : AnchorTable) (wt : Int) : Reachable t →
      Reachable ⟨[], 0, wt⟩
  | search (t t' : AnchorTable) (arr : List Int) (key : Int) (tol : Nat)
      (res : Option Nat) (hr : Reachable t) (hsorted : sortedLE arr)
      (hlen : arr.length < U63)
      (hs : not_stisla_search arr key (some t) tol = .ok (res, some t')) :
      Reachable t'

/-- The structural invariant of every reachable table: it is empty, or it
holds exactly the two anchors seeding left (index 0) and a right index
below `2^63`, with values in order. -/
def TableInv (t : AnchorTable) : Prop :=
  t.anchors = [] ∨
    ∃ v1 v2 m, t.anchors = [⟨v1, 0⟩, ⟨v2, m⟩] ∧ v1 ≤ v2 ∧ m < U63

end NotStisla

namespace NotStisla

/-! ## Basic access lemmas -/

theorem getD_eq_get (l : List Int) (i : Nat) (h : i < l.length) :
    l.getD i 0 = l.get ⟨i, h⟩ := by
  rw [List.getD_eq_get?, List.get?_eq_get h]
  rfl

theorem sorted_getD (arr : List Int) (hs : sortedLE arr) {i j : Nat}
    (hij : i ≤ j) (hj : j < arr.length) : arr.getD i 0 ≤ arr.getD j 0 := by
  rcases Nat.eq_or_lt_of_le hij with rfl | hlt
  · exact le_refl _
  · have hi : i < arr.length := lt_trans hlt hj
    rw [getD_eq_get arr i hi, getD_eq_get arr j hj]
    exact List.pairwise_iff_get.mp (List.chain'_iff_pairwise.mp hs) ⟨i, hi⟩ ⟨j, hj⟩ hlt

theorem chainLEb_sound : ∀ arr : List Int, chainLEb arr = true → sortedLE arr
  | [], _ => List.chain'_nil
  | [a], _ => List.chain'_singleton a
  | a :: b :: rest, h => by
    rw [chainLEb] at h
    simp only [Bool.and_eq_true, decide_eq_true_eq] at h
    exact List.chain'_cons.mpr ⟨h.1, chainLEb_sound (b :: rest) h.2⟩

theorem getA_eq_get (l : List Anchor) (i : Nat) (h : i < l.length) :
    getA l i = l.get ⟨i, h⟩ := by
  unfold getA
  rw [List.getD_eq_get?, List.get?_eq_get h]
  rfl

theorem strict_getA (anchors : List Anchor) (hs : strictSortedAnchors anchors)
    {i j : Nat} (hij : i < j) (hj : j < anchors.length) :
    (getA anchors i).v < (getA anchors j).v := by
  have hi : i < anchors.length := lt_trans hij hj
  rw [getA_eq_get anchors i hi, getA_eq_get anchors j hj]
  exact List.pairwise_iff_get.mp (List.chain'_iff_pairwise.mp hs) ⟨i, hi⟩ ⟨j, hj⟩ hij

/-! ## Interpolator bounds -/

theorem interpolate_nonneg (l_val r_val : Int) (l_idx r_idx : Nat) (key : Int) :
    0 ≤ not_stisla_interpolate l_val r_val l_idx r_idx key := by
  unfold not_stisla_interpolate
  dsimp only
  split_ifs <;> omega

theorem interpolate_le (l_val r_val : Int) {l_idx r_idx : Nat} (key : Int)
    (h : l_idx ≤ r_idx) :
    not_stisla_interpolate l_val r_val l_idx r_idx key ≤ (r_idx : Int) := by
  unfold not_stisla_interpolate
  dsimp only
  split_ifs <;> omega

theorem interpolate_toNat_le (l_val r_val : Int) {l_idx r_idx : Nat} (key : Int)
    (h : l_idx ≤ r_idx) :
    (not_stisla_interpolate l_val r_val l_idx r_idx key).toNat ≤ r_idx :=
  Int.toNat_le.mpr (interpolate_le l_val r_val key h)

/-! ## Local binary search -/

theorem localGo_some (arr : List Int) (key : Int) :
    ∀ fuel lo hi m, localGo arr key fuel lo hi = some m →
      lo ≤ m ∧ m ≤ hi ∧ arr.getD m 0 = key := by
  intro fuel
  induction fuel with
  | zero => intro lo hi m h; simp [localGo] at h
  | succ fuel ih =>
    intro lo hi m h
    rw [localGo] at h
    split_ifs at h with hle hlt hgt hmid
    · have := ih (lo + (hi - lo) / 2 + 1) hi m h
      omega
    · have := ih lo (lo + (hi - lo) / 2 - 1) m h
      omega
    · have hm : lo + (hi - lo) / 2 = m := Option.some.inj h
      refine ⟨by omega, by omega, ?_⟩
      rw [← hm]
      omega

theorem localGo_find (arr : List Int) (key : Int) (hs : sortedLE arr) :
    ∀ fuel lo hi, hi < arr.length → hi + 1 - lo < fuel →
      (∃ i, lo ≤ i ∧ i ≤ hi ∧ arr.getD i 0 = key) →
      ∃ m, localGo arr key fuel lo hi = some m := by
  intro fuel
  induction fuel with
  | zero => intro lo hi _ hf _; omega
  | succ fuel ih =>
    intro lo hi hhi hf hpres
    obtain ⟨i, hloi, hihi, hkey⟩ := hpres
    rw [localGo]
    have hlohi : lo ≤ hi := le_trans hloi hihi
    rw [if_pos hlohi]
    have hmlo : lo ≤ lo + (hi - lo) / 2 := by omega
    have hmhi : lo + (hi - lo) / 2 ≤ hi := by omega
    have hmlen : lo + (hi - lo) / 2 < arr.length := lt_of_le_of_lt hmhi hhi
    split_ifs with hlt hgt hz
    · -- arr[mid] < key: key occurrences lie strictly right of mid
      have himid : lo + (hi - lo) / 2 + 1 ≤ i := by
        by_contra hcon
        have hile : i ≤ lo + (hi - lo) / 2 := by omega
        have := sorted_getD arr hs hile hmlen
        omega
      exact ih (lo + (hi - lo) / 2 + 1) hi hhi (by omega) ⟨i, himid, hihi, hkey⟩
    · -- key < arr[mid] with mid = 0: no occurrence can exist
      exfalso
      have himid : i < lo + (hi - lo) / 2 := by
        by_contra hcon
        have hile : lo + (hi - lo) / 2 ≤ i := by omega
        have := sorted_getD arr hs hile (lt_of_le_of_lt hihi hhi)
        omega
      omega
    · -- key < arr[mid], mid ≠ 0: occurrences lie strictly left of mid
      have himid : i < lo + (hi - lo) / 2 := by
        by_contra hcon
        have hile : lo + (hi - lo) / 2 ≤ i := by omega
        have := sorted_getD arr hs hile (lt_of_le_of_lt hihi hhi)
        omega
      exact ih lo (lo + (hi - lo) / 2 - 1) (by omega) (by omega) ⟨i, hloi, by omega, hkey⟩
    · exact ⟨lo + (hi - lo) / 2, rfl⟩

theorem local_search_some (arr : List Int) (lo hi : Nat) (key : Int) (m : Nat)
    (h : not_stisla_local_search arr lo hi key = some m) :
    lo < hi ∧ lo ≤ m ∧ m ≤ hi ∧ arr.getD m 0 = key := by
  unfold not_stisla_local_search at h
  split_ifs at h with hc
  push_neg at hc
  exact ⟨hc.1, localGo_some arr key _ lo hi m h⟩

theorem local_search_find (arr : List Int) (lo hi : Nat) (key : Int)
    (hs : sortedLE arr) (hhi : hi < arr.length) (hlo : lo < hi)
    (hpres : ∃ i, lo ≤ i ∧ i ≤ hi ∧ arr.getD i 0 = key) :
    ∃ m, not_stisla_local_search arr lo hi key = some m := by
  obtain ⟨i, hloi, hihi, hkey⟩ := hpres
  have h1 : arr.getD lo 0 ≤ key := by
    have := sorted_getD arr hs hloi (lt_of_le_of_lt hihi hhi)
    omega
  have h2 : key ≤ arr.getD hi 0 := by
    have := sorted_getD arr hs hihi hhi
    omega
  unfold not_stisla_local_search
  rw [if_neg (by push_neg; exact ⟨hlo, by omega, by omega⟩)]
  exact localGo_find arr key hs (hi - lo + 2) lo hi hhi (by omega) ⟨i, hloi, hihi, hkey⟩


/-! ## Chunked scan -/

theorem linScanGo_shift (a : Int) (arr : List Int) (key : Int) :
    ∀ k i, linScanGo (a :: arr) key k (i + 1) = (linScanGo arr key k i).map (· + 1) := by
  intro k
  induction k with
  | zero => intro i; simp [linScanGo]
  | succ k ih =>
    intro i
    rw [linScanGo, linScanGo, List.getD_cons_succ]
    split_ifs with hk
    · simp
    · exact ih (i + 1)

theorem linScanGo_split (arr : List Int) (key : Int) :
    ∀ a b i, linScanGo arr key (a + b) i =
      match linScanGo arr key a i with
      | some j => some j
      | none => linScanGo arr key b (i + a) := by
  intro a
  induction a with
  | zero => intro b i; simp [linScanGo]
  | succ a ih =>
    intro b i
    rw [Nat.add_right_comm a 1 b, linScanGo, linScanGo]
    split_ifs with hk
    · rfl
    · rw [ih b (i + 1)]
      have harith : i + 1 + a = i + (a + 1) := by omega
      rw [harith]

theorem linScanGo_four (arr : List Int) (key : Int) (k i : Nat) :
    linScanGo arr key (k + 4) i =
      if arr.getD i 0 = key then some i
      else if arr.getD (i + 1) 0 = key then some (i + 1)
      else if arr.getD (i + 2) 0 = key then some (i + 2)
      else if arr.getD (i + 3) 0 = key then some (i + 3)
      else linScanGo arr key k (i + 4) := by
  rw [show k + 4 = k + 3 + 1 by omega, linScanGo]
  rw [show k + 3 = k + 2 + 1 by omega, linScanGo]
  rw [show k + 2 = k + 1 + 1 by omega, linScanGo]
  rw [linScanGo]

theorem chunkGo_eq (arr : List Int) (key : Int) :
    ∀ c base, chunkGo arr key c base = linScanGo arr key (4 * c) base := by
  intro c
  induction c with
  | zero => intro base; simp [chunkGo, linScanGo]
  | succ c ih =>
    intro base
    rw [chunkGo, show 4 * (c + 1) = 4 * c + 4 by omega, linScanGo_four]
    rw [ih (base + 4)]

theorem chunked_eq_lin (arr : List Int) (key : Int) :
    not_stisla_chunked_search arr key = linScanGo arr key arr.length 0 := by
  unfold not_stisla_chunked_search
  dsimp only
  split_ifs with hle
  · rfl
  · rw [chunkGo_eq arr key (arr.length / 4) 0]
    have hsplit := linScanGo_split arr key (4 * (arr.length / 4))
      (arr.length - arr.length / 4 * 4) 0
    have harith : 4 * (arr.length / 4) + (arr.length - arr.length / 4 * 4) = arr.length := by
      have := Nat.div_mul_le_self arr.length 4
      omega
    rw [harith] at hsplit
    rw [hsplit]
    have hstart : 0 + 4 * (arr.length / 4) = arr.length / 4 * 4 := by omega
    rw [hstart]

theorem lin_eq_spec (arr : List Int) (key : Int) :
    linScanGo arr key arr.length 0 = specLinearScan arr key := by
  induction arr with
  | nil => simp [linScanGo, specLinearScan]
  | cons a rest ih =>
    rw [specLinearScan, List.length_cons, linScanGo, List.getD_cons_zero]
    by_cases hk : a = key
    · simp [hk]
    · simp only [hk, if_false]
      rw [linScanGo_shift a rest key rest.length 0, ih]

theorem chunked_eq_spec (arr : List Int) (key : Int) :
    not_stisla_chunked_search arr key = specLinearScan arr key := by
  rw [chunked_eq_lin, lin_eq_spec]

theorem specLinearScan_some (key : Int) :
    ∀ (arr : List Int) (j : Nat), specLinearScan arr key = some j →
      j < arr.length ∧ arr.getD j 0 = key ∧ ∀ i, i < j → arr.getD i 0 ≠ key := by
  intro arr
  induction arr with
  | nil => intro j h; simp [specLinearScan] at h
  | cons a rest ih =>
    intro j h
    rw [specLinearScan] at h
    by_cases hk : a = key
    · rw [if_pos hk] at h
      have hj : j = 0 := (Option.some.inj h).symm
      subst hj
      refine ⟨by simp, by simpa using hk, fun i hi => absurd hi (by omega)⟩
    · rw [if_neg hk] at h
      rcases Option.map_eq_some'.mp h with ⟨j0, hj0, hjj⟩
      obtain ⟨h1, h2, h3⟩ := ih j0 hj0
      subst hjj
      refine ⟨by simpa using h1, by simpa using h2, ?_⟩
      intro i hi
      cases i with
      | zero => simpa using hk
      | succ i =>
        rw [List.getD_cons_succ]
        exact h3 i (by omega)

theorem specLinearScan_none (key : Int) :
    ∀ arr : List Int, specLinearScan arr key = none →
      ∀ i, i < arr.length → arr.getD i 0 ≠ key := by
  intro arr
  induction arr with
  | nil => intro _ i hi; simp at hi
  | cons a rest ih =>
    intro h i hi
    rw [specLinearScan] at h
    by_cases hk : a = key
    · rw [if_pos hk] at h; exact Option.noConfusion h
    · rw [if_neg hk] at h
      cases i with
      | zero => simpa using hk
      | succ i =>
        rw [List.getD_cons_succ]
        exact ih (Option.map_eq_none'.mp h) i (by simpa using hi)

theorem specLinearScan_found (arr : List Int) (key : Int)
    (h : ∃ i, i < arr.length ∧ arr.getD i 0 = key) :
    ∃ j, specLinearScan arr key = some j := by
  cases hv : specLinearScan arr key with
  | none =>
    obtain ⟨i, hi, hk⟩ := h
    exact absurd hk (specLinearScan_none key arr hv i hi)
  | some j => exact ⟨j, rfl⟩


/-! ## Anchor lower bound -/

theorem anchorLowerGo_all_gt (anchors : List Anchor) (key : Int)
    (hs : strictSortedAnchors anchors) :
    ∀ fuel lo hi, hi - lo < fuel → lo < hi → hi < anchors.length →
      key < (getA anchors lo).v → anchorLowerGo anchors key fuel lo hi = lo := by
  intro fuel
  induction fuel with
  | zero => intro lo hi hf _ _ _; omega
  | succ fuel ih =>
    intro lo hi hf hlh hhi hkey
    rw [anchorLowerGo]
    split_ifs with h1 h2
    · exfalso
      have hmid : lo < lo + (hi - lo) / 2 := by omega
      have := strict_getA anchors hs hmid (by omega)
      omega
    · exact ih lo (lo + (hi - lo) / 2) (by omega) (by omega) (by omega) hkey
    · rfl

theorem anchorLowerGo_spec (anchors : List Anchor) (key : Int)
    (hs : strictSortedAnchors anchors) :
    ∀ fuel lo hi, hi - lo < fuel → lo < hi → hi < anchors.length →
      (getA anchors lo).v ≤ key →
      lo ≤ anchorLowerGo anchors key fuel lo hi ∧
      anchorLowerGo anchors key fuel lo hi < hi ∧
      (getA anchors (anchorLowerGo anchors key fuel lo hi)).v ≤ key ∧
      (key < (getA anchors hi).v →
        key < (getA anchors (anchorLowerGo anchors key fuel lo hi + 1)).v) ∧
      ((getA anchors hi).v ≤ key → anchorLowerGo anchors key fuel lo hi + 1 = hi) := by
  intro fuel
  induction fuel with
  | zero => intro lo hi hf _ _ _; omega
  | succ fuel ih =>
    intro lo hi hf hlh hhi hlo
    rw [anchorLowerGo]
    split_ifs with h1 h2
    · -- anchors[mid].v ≤ key: continue in [mid, hi]
      obtain ⟨c1, c2, c3, c4, c5⟩ :=
        ih (lo + (hi - lo) / 2) hi (by omega) (by omega) hhi h2
      exact ⟨by omega, c2, c3, c4, c5⟩
    · -- key < anchors[mid].v: continue in [lo, mid]
      obtain ⟨c1, c2, c3, c4, c5⟩ :=
        ih lo (lo + (hi - lo) / 2) (by omega) (by omega) (by omega) hlo
      refine ⟨c1, by omega, c3, fun _ => c4 (by omega), ?_⟩
      intro hhile
      exfalso
      have : (getA anchors (lo + (hi - lo) / 2)).v < (getA anchors hi).v :=
        strict_getA anchors hs (by omega) hhi
      omega
    · -- adjacent: hi = lo + 1
      have hadj : hi = lo + 1 := by omega
      subst hadj
      exact ⟨le_refl lo, by omega, hlo, fun h => h, fun _ => rfl⟩

theorem anchor_lower_spec (anchors : List Anchor) (key : Int)
    (hs : strictSortedAnchors anchors) (hne : anchors ≠ []) :
    not_stisla_anchor_lower anchors key < anchors.length ∧
    (key < (getA anchors 0).v → not_stisla_anchor_lower anchors key = 0) ∧
    ((getA anchors 0).v ≤ key →
      (getA anchors (not_stisla_anchor_lower anchors key)).v ≤ key ∧
      (anchors.length ≤ 3 →
        (not_stisla_anchor_lower anchors key + 1 = anchors.length ∨
          key < (getA anchors (not_stisla_anchor_lower anchors key + 1)).v)) ∧
      (4 ≤ anchors.length →
        not_stisla_anchor_lower anchors key + 2 ≤ anchors.length ∧
        (not_stisla_anchor_lower anchors key + 2 = anchors.length ∨
          key < (getA anchors (not_stisla_anchor_lower anchors key + 1)).v))) := by
  have hn : 1 ≤ anchors.length := by
    cases anchors with
    | nil => exact absurd rfl hne
    | cons a rest => simp
  rcases Nat.lt_or_ge anchors.length 4 with hsmall | hbig
  · -- the unrolled cases: 1, 2 or 3 anchors
    interval_cases hlen : anchors.length
    · -- one anchor
      obtain ⟨a, rfl⟩ := List.length_eq_one.mp hlen
      unfold not_stisla_anchor_lower
      simp only [getA, List.length_cons, List.length_nil]
      norm_num
    · -- two anchors
      obtain ⟨a, b, rfl⟩ := List.length_eq_two.mp hlen
      have hab : a.v < b.v := by
        simpa [strictSortedAnchors] using hs
      unfold not_stisla_anchor_lower
      simp only [getA, List.length_cons, List.length_nil]
      norm_num
      split_ifs with h1 h2 <;> simp_all <;> omega
    · -- three anchors
      obtain ⟨a, b, c, rfl⟩ := List.length_eq_three.mp hlen
      have hab : a.v < b.v ∧ b.v < c.v := by
        simpa [strictSortedAnchors] using hs
      unfold not_stisla_anchor_lower
      simp only [getA, List.length_cons, List.length_nil]
      norm_num
      split_ifs with h1 h2 h3 <;> simp_all <;> omega
  · -- four or more anchors: the binary-search loop
    have hred : not_stisla_anchor_lower anchors key =
        anchorLowerGo anchors key (anchors.length - 1 + 1) 0 (anchors.length - 1) := by
      unfold not_stisla_anchor_lower
      rw [if_neg (by omega)]
      obtain ⟨m, hm⟩ : ∃ m, anchors.length - 1 - 0 = m + 3 := ⟨anchors.length - 4, by omega⟩
      simp only [hm]
      have hm2 : anchors.length - 1 = m + 3 := by omega
      rw [hm2]
    rw [hred]
    by_cases hkey : (getA anchors 0).v ≤ key
    · obtain ⟨c1, c2, c3, c4, c5⟩ := anchorLowerGo_spec anchors key hs
        (anchors.length - 1 + 1) 0 (anchors.length - 1) (by omega) (by omega) (by omega) hkey
      refine ⟨by omega, fun h => absurd hkey (by omega), fun _ => ⟨c3, by omega, fun _ => ?_⟩⟩
      refine ⟨by omega, ?_⟩
      by_cases hlast : (getA anchors (anchors.length - 1)).v ≤ key
      · left
        have := c5 hlast
        omega
      · right
        exact c4 (by omega)
    · have hz := anchorLowerGo_all_gt anchors key hs (anchors.length - 1 + 1) 0
        (anchors.length - 1) (by omega) (by omega) (by omega) (by omega)
      rw [hz]
      exact ⟨by omega, fun _ => rfl, fun h => absurd h hkey⟩


/-! ## Engine lemmas -/

theorem anchor_lower_pair (a b : Anchor) (key : Int) :
    not_stisla_anchor_lower [a, b] key =
      if a.v ≤ key then (if b.v ≤ key then 1 else 0) else 0 := rfl

theorem seedTable_of_empty (arr : List Int) (t : AnchorTable) (h : t.anchors = []) :
    seedTable arr t =
      { t with anchors := [⟨arr.getD 0 0, 0⟩, ⟨arr.getD (arr.length - 1) 0, arr.length - 1⟩] } := by
  unfold seedTable
  rw [if_pos h]

theorem seedTable_of_nonempty (arr : List Int) (t : AnchorTable) (h : t.anchors ≠ []) :
    seedTable arr t = t := by
  unfold seedTable
  rw [if_neg h]

theorem seedTable_counter (arr : List Int) (t : AnchorTable) :
    (seedTable arr t).searches_performed = t.searches_performed := by
  unfold seedTable
  split_ifs <;> rfl

theorem seedTable_workload (arr : List Int) (t : AnchorTable) :
    (seedTable arr t).workload_type = t.workload_type := by
  unfold seedTable
  split_ifs <;> rfl

theorem learn_of_close (t : AnchorTable) (value : Int) (index pred tol : Nat)
    (h : natDiff pred index ≤ tol) :
    not_stisla_learn_anchor t value index pred tol = t := by
  unfold not_stisla_learn_anchor
  rw [if_pos h]

theorem learn_counter (t : AnchorTable) (value : Int) (index pred tol : Nat) :
    (not_stisla_learn_anchor t value index pred tol).searches_performed =
      t.searches_performed := by
  unfold not_stisla_learn_anchor
  split_ifs <;> rfl

theorem bumpCounter_anchors (t : AnchorTable) :
    (bumpCounter t).anchors = t.anchors := rfl

theorem searchWindow_zero (l r : Anchor) (pred tol : Nat) (hl : l.i = 0)
    (hpred : pred ≤ r.i) (hr : r.i < U63) (j : Nat)
    (h1 : (searchWindow l r pred tol).1 ≤ j) (h2 : j ≤ (searchWindow l r pred tol).2) :
    natDiff pred j ≤ tol := by
  unfold searchWindow at h1 h2
  rw [hl] at h1 h2
  simp only [U64] at h1 h2
  simp only [U63] at hr
  unfold natDiff
  split_ifs at h1 h2 ⊢ <;> omega

theorem searchCore_found (arr : List Int) (key : Int) (tol : Nat)
    (anchors : List Anchor) (j : Nat) (pred : Nat)
    (h : searchCore arr key tol anchors = .ok (some j, pred)) :
    j < arr.length ∧ arr.getD j 0 = key := by
  unfold searchCore at h
  dsimp only at h
  split_ifs at h with h1 h2
  have hp := Except.ok.inj h
  injection hp with hloc hpred
  obtain ⟨hlt, hjlo, hjhi, hkey⟩ := local_search_some arr _ _ key j hloc
  push_neg at h2
  exact ⟨lt_of_le_of_lt hjhi (h2 hlt), hkey⟩

theorem searchCore_pair_diff (arr : List Int) (key : Int) (tol : Nat) (v1 v2 : Int)
    (m : Nat) (hm : m < U63) (j : Nat) (pred : Nat)
    (h : searchCore arr key tol [⟨v1, 0⟩, ⟨v2, m⟩] = .ok (some j, pred)) :
    natDiff pred j ≤ tol := by
  by_cases hv : v1 ≤ key ∧ v2 ≤ key
  · -- both anchors ≤ key: the lookup returns the last anchor and the engine
    -- reads past the table, an error, contradicting the ok hypothesis
    exfalso
    unfold searchCore at h
    dsimp only at h
    rw [anchor_lower_pair] at h
    rw [if_pos hv.1, if_pos hv.2] at h
    simp at h
  · have ha : not_stisla_anchor_lower [⟨v1, 0⟩, ⟨v2, m⟩] key = 0 := by
      rw [anchor_lower_pair]
      split_ifs with h1 h2
      · exact absurd ⟨h1, h2⟩ hv
      · rfl
      · rfl
    unfold searchCore at h
    dsimp only at h
    rw [ha] at h
    simp only [getA, List.getD_cons_zero, List.getD_cons_succ, List.length_cons,
      List.length_nil] at h
    split_ifs at h with h1 h2
    have hp := Except.ok.inj h
    injection hp with hloc hpred
    obtain ⟨hlt, hjlo, hjhi, hkey⟩ := local_search_some arr _ _ key j hloc
    have hple : (not_stisla_interpolate v1 v2 0 m key).toNat ≤ m :=
      interpolate_toNat_le v1 v2 key (Nat.zero_le m)
    have hd := searchWindow_zero ⟨v1, 0⟩ ⟨v2, m⟩
      (not_stisla_interpolate v1 v2 0 m key).toNat tol rfl hple hm j hjlo hjhi
    rw [hpred] at hd
    exact hd

theorem search_ok_res (arr : List Int) (key : Int) (table : Option AnchorTable)
    (tol : Nat) (res : Option Nat) (t2 : Option AnchorTable)
    (h : not_stisla_search arr key table tol = .ok (res, t2)) :
    (arr.length = 0 ∧ res = none) ∨
    (arr.length ≠ 0 ∧ arr.length < 32 ∧ res = not_stisla_chunked_search arr key) ∨
    (32 ≤ arr.length ∧ ∃ pred,
      searchCore arr key tol (seedTable arr (table.getD emptyTable)).anchors =
        .ok (res, pred)) := by
  unfold not_stisla_search at h
  dsimp only at h
  split_ifs at h with h0 h32
  · left
    have hp := Except.ok.inj h
    injection hp with h1 h2
    exact ⟨h0, h1.symm⟩
  · right; left
    have hp := Except.ok.inj h
    injection hp with h1 h2
    exact ⟨h0, h32, h1.symm⟩
  · right; right
    refine ⟨by omega, ?_⟩
    cases hsc : searchCore arr key tol (seedTable arr (table.getD emptyTable)).anchors with
    | error e => rw [hsc] at h; exact Except.noConfusion h
    | ok p =>
      obtain ⟨res0, pred⟩ := p
      rw [hsc] at h
      cases res0 with
      | some j =>
        cases table with
        | some t =>
          have hp := Except.ok.inj h
          injection hp with h1 h2
          exact ⟨pred, by rw [h1]⟩
        | none =>
          have hp := Except.ok.inj h
          injection hp with h1 h2
          exact ⟨pred, by rw [h1]⟩
      | none =>
        cases table with
        | some t =>
          have hp := Except.ok.inj h
          injection hp with h1 h2
          exact ⟨pred, by rw [h1]⟩
        | none =>
          have hp := Except.ok.inj h
          injection hp with h1 h2
          exact ⟨pred, by rw [h1]⟩

theorem search_ok_cases (arr : List Int) (key : Int) (t : AnchorTable)
    (tol : Nat) (res : Option Nat) (t' : AnchorTable)
    (h : not_stisla_search arr key (some t) tol = .ok (res, some t')) :
    (arr.length = 0 ∧ res = none ∧ t' = t) ∨
    (arr.length ≠ 0 ∧ arr.length < 32 ∧
      res = not_stisla_chunked_search arr key ∧ t' = t) ∨
    (32 ≤ arr.length ∧ ∃ pred,
      searchCore arr key tol (seedTable arr t).anchors = .ok (res, pred) ∧
      ((res = none ∧ t' = seedTable arr t) ∨
        (∃ j, res = some j ∧
          t' = bumpCounter
            (not_stisla_learn_anchor (seedTable arr t) (arr.getD j 0) j pred tol)))) := by
  unfold not_stisla_search at h
  dsimp only at h
  split_ifs at h with h0 h32
  · left
    have hp := Except.ok.inj h
    injection hp with h1 h2
    injection h2 with h3
    exact ⟨h0, h1.symm, h3.symm⟩
  · right; left
    have hp := Except.ok.inj h
    injection hp with h1 h2
    injection h2 with h3
    exact ⟨h0, h32, h1.symm, h3.symm⟩
  · right; right
    refine ⟨by omega, ?_⟩
    simp only [Option.getD_some] at h
    cases hsc : searchCore arr key tol (seedTable arr t).anchors with
    | error e => rw [hsc] at h; exact Except.noConfusion h
    | ok p =>
      obtain ⟨res0, pred⟩ := p
      rw [hsc] at h
      cases res0 with
      | some j =>
        have hp := Except.ok.inj h
        injection hp with h1 h2
        injection h2 with h3
        refine ⟨pred, by rw [h1], Or.inr ⟨j, h1.symm, h3.symm⟩⟩
      | none =>
        have hp := Except.ok.inj h
        injection hp with h1 h2
        injection h2 with h3
        exact ⟨pred, by rw [h1], Or.inl ⟨h1.symm, h3.symm⟩⟩

theorem seed_pair (arr : List Int) (t : AnchorTable) (hsorted : sortedLE arr)
    (hlen : arr.length < U63) (hn : 32 ≤ arr.length) (hinv : TableInv t) :
    ∃ v1 v2 m, (seedTable arr t).anchors = [⟨v1, 0⟩, ⟨v2, m⟩] ∧ v1 ≤ v2 ∧ m < U63 := by
  rcases hinv with hemp | ⟨v1, v2, m, hanch, hv, hm⟩
  · rw [seedTable_of_empty arr t hemp]
    refine ⟨arr.getD 0 0, arr.getD (arr.length - 1) 0, arr.length - 1, rfl, ?_, by omega⟩
    exact sorted_getD arr hsorted (Nat.zero_le _) (by omega)
  · rw [seedTable_of_nonempty arr t (by rw [hanch]; exact List.cons_ne_nil _ _)]
    exact ⟨v1, v2, m, hanch, hv, hm⟩

theorem TableInv_step (t t' : AnchorTable) (arr : List Int) (key : Int) (tol : Nat)
    (res : Option Nat) (hinv : TableInv t) (hsorted : sortedLE arr)
    (hlen : arr.length < U63)
    (h : not_stisla_search arr key (some t) tol = .ok (res, some t')) : TableInv t' := by
  rcases search_ok_cases arr key t tol res t' h with
    ⟨_, _, rfl⟩ | ⟨_, _, _, rfl⟩ | ⟨hn, pred, hsc, hrest⟩
  · exact hinv
  · exact hinv
  · obtain ⟨v1, v2, m, hanch, hv, hm⟩ := seed_pair arr t hsorted hlen hn hinv
    rcases hrest with ⟨_, rfl⟩ | ⟨j, rfl, rfl⟩
    · exact Or.inr ⟨v1, v2, m, hanch, hv, hm⟩
    · rw [hanch] at hsc
      have hdiff := searchCore_pair_diff arr key tol v1 v2 m hm j pred hsc
      rw [learn_of_close _ _ _ _ _ hdiff]
      exact Or.inr ⟨v1, v2, m, by rw [bumpCounter_anchors]; exact hanch, hv, hm⟩

theorem Reachable_inv (t : AnchorTable) (h : Reachable t) : TableInv t := by
  induction h with
  | create => exact Or.inl rfl
  | reset t _ _ => exact Or.inl rfl
  | configure t wt _ _ => exact Or.inl rfl
  | search t t' arr key tol res hr hsorted hlen hs ih =>
    exact TableInv_step t t' arr key tol res ih hsorted hlen hs

theorem workloadMax_ge (wt : Int) : 8 ≤ workloadMaxAnchors wt := by
  unfold workloadMaxAnchors
  split_ifs <;> norm_num


/-! ## Claim theorems -/

/-- C2 counterexample: with anchors `(10, 5)` and `(20, 10)` and key `-1000`
the interpolator returns 0, which is below `l_index = 5`, so the result is
not within `[l_index, r_index]` as the claim states. -/
theorem c2_interpolate_counterexample :
    not_stisla_interpolate 10 20 5 10 (-1000) = 0 ∧ (0 : Nat) < 5 :=
  ⟨rfl, by norm_num⟩

/-- C2 (amended): for every anchor pair with `l_index ≤ r_index` (indices in
the physically representable range, where the exact-integer model coincides
with the C `__int128` arithmetic and casts) and every key, the interpolated
result lies within `[0, r_index]`: it is never negative and never above
`r_index`, but the lower clamp is 0, not `l_index`. -/
theorem c2_interpolate_clamped (l_val r_val key : Int) (l_idx r_idx : Nat)
    (h : l_idx ≤ r_idx) (hr : r_idx < U63)
    (hlv : -9223372036854775808 ≤ l_val ∧ l_val ≤ 9223372036854775807)
    (hrv : -9223372036854775808 ≤ r_val ∧ r_val ≤ 9223372036854775807)
    (hk : -9223372036854775808 ≤ key ∧ key ≤ 9223372036854775807) :
    0 ≤ not_stisla_interpolate l_val r_val l_idx r_idx key ∧
    not_stisla_interpolate l_val r_val l_idx r_idx key ≤ (r_idx : Int) :=
  ⟨interpolate_nonneg l_val r_val l_idx r_idx key, interpolate_le l_val r_val key h⟩

/-- C2 witness: the amended bound evaluated at the counterexample input. -/
theorem c2_interpolate_clamped_witness :
    0 ≤ not_stisla_interpolate 10 20 5 10 (-1000) ∧
    not_stisla_interpolate 10 20 5 10 (-1000) ≤ (10 : Int) :=
  c2_interpolate_clamped 10 20 (-1000) 5 10 (by norm_num) (by norm_num [U63])
    (by norm_num) (by norm_num) (by norm_num)

/-- C3 counterexample: four strictly sorted anchors with values 0,1,2,3 and
key 10 ≥ every anchor value: the binary-search case returns position 2, not
the position 3 of the last anchor, and `anchors[2+1].value ≤ key` — so the
claimed contract fails for the binary-search case. -/
theorem c3_anchor_lower_counterexample :
    not_stisla_anchor_lower [⟨0, 0⟩, ⟨1, 1⟩, ⟨2, 2⟩, ⟨3, 3⟩] 10 = 2 ∧
    strictSortedAnchors [⟨0, 0⟩, ⟨1, 1⟩, ⟨2, 2⟩, ⟨3, 3⟩] ∧
    (∀ a ∈ [(⟨0, 0⟩ : Anchor), ⟨1, 1⟩, ⟨2, 2⟩, ⟨3, 3⟩], a.v ≤ 10) ∧
    (2 : Nat) ≠ [(⟨0, 0⟩ : Anchor), ⟨1, 1⟩, ⟨2, 2⟩, ⟨3, 3⟩].length - 1 ∧
    ¬ (10 : Int) < (getA [⟨0, 0⟩, ⟨1, 1⟩, ⟨2, 2⟩, ⟨3, 3⟩] (2 + 1)).v := by
  refine ⟨rfl, by norm_num [strictSortedAnchors], by decide, by decide, by decide⟩

/-- C3 (amended): for a nonempty strictly sorted anchor table, the returned
position `p` is in range, and `anchors[p].value ≤ key < anchors[p+1].value`
holds in the unrolled cases (1-3 anchors, with the last position returned
when the key is ≥ all values) whenever `key ≥ anchors[0].value`; for 4 or
more anchors the binary search never returns past position `size - 2`, and
returns `size - 2` (not the last anchor) when the key is ≥ all values;
when `key < anchors[0].value` the function returns 0 although no position
satisfies the contract. -/
theorem c3_anchor_lower_amended (anchors : List Anchor) (key : Int)
    (hs : strictSortedAnchors anchors) (hne : anchors ≠ []) :
    not_stisla_anchor_lower anchors key < anchors.length ∧
    (key < (getA anchors 0).v → not_stisla_anchor_lower anchors key = 0) ∧
    ((getA anchors 0).v ≤ key →
      (getA anchors (not_stisla_anchor_lower anchors key)).v ≤ key ∧
      (anchors.length ≤ 3 →
        (not_stisla_anchor_lower anchors key + 1 = anchors.length ∨
          key < (getA anchors (not_stisla_anchor_lower anchors key + 1)).v)) ∧
      (4 ≤ anchors.length →
        not_stisla_anchor_lower anchors key + 2 ≤ anchors.length ∧
        (not_stisla_anchor_lower anchors key + 2 = anchors.length ∨
          key < (getA anchors (not_stisla_anchor_lower anchors key + 1)).v))) :=
  anchor_lower_spec anchors key hs hne

/-- C3 witness: the amended contract evaluated on a concrete 4-anchor
table. -/
theorem c3_anchor_lower_amended_witness :
    not_stisla_anchor_lower [⟨0, 0⟩, ⟨1, 1⟩, ⟨2, 2⟩, ⟨3, 3⟩] 1 <
      [(⟨0, 0⟩ : Anchor), ⟨1, 1⟩, ⟨2, 2⟩, ⟨3, 3⟩].length :=
  (c3_anchor_lower_amended [⟨0, 0⟩, ⟨1, 1⟩, ⟨2, 2⟩, ⟨3, 3⟩] 1
    (by norm_num [strictSortedAnchors]) (by decide)).1

/-- C4 counterexample: the one-element window `[0, 0]` on the array `[5]`
with key 5 returns NOT_FOUND although the claimed fail-fast condition
(`lo > hi`, or `arr[lo] > key`, or `arr[hi] < key`) is false and the key is
present at `lo` — because the code tests `lo >= hi`, not `lo > hi`. -/
theorem c4_local_search_counterexample :
    not_stisla_local_search [5] 0 0 5 = none ∧
    ¬ ((0 : Nat) > 0) ∧ ¬ ([(5 : Int)].getD 0 0 > 5) ∧
    ¬ ([(5 : Int)].getD 0 0 < 5) ∧ [(5 : Int)].getD 0 0 = 5 := by
  refine ⟨rfl, by decide, by decide, by decide, by decide⟩

/-- C4 (amended): the local search fails fast exactly on `lo ≥ hi` (so a
one-element window always returns NOT_FOUND, even on a match), or
`arr[lo] > key`, or `arr[hi] < key`; otherwise it is a binary search
confined to `[lo, hi]`: any returned index is in `[lo, hi]` and holds the
key, and when the key occurs in the window some matching index is
returned. -/
theorem c4_local_search_amended (arr : List Int) (lo hi : Nat) (key : Int)
    (hs : sortedLE arr) (hhi : hi < arr.length) :
    ((lo ≥ hi ∨ arr.getD lo 0 > key ∨ arr.getD hi 0 < key) →
      not_stisla_local_search arr lo hi key = none) ∧
    (∀ m, not_stisla_local_search arr lo hi key = some m →
      lo ≤ m ∧ m ≤ hi ∧ arr.getD m 0 = key) ∧
    (lo < hi → (∃ i, lo ≤ i ∧ i ≤ hi ∧ arr.getD i 0 = key) →
      ∃ m, not_stisla_local_search arr lo hi key = some m ∧
        lo ≤ m ∧ m ≤ hi ∧ arr.getD m 0 = key) := by
  refine ⟨?_, ?_, ?_⟩
  · intro hc
    unfold not_stisla_local_search
    rw [if_pos hc]
  · intro m hm
    exact (local_search_some arr lo hi key m hm).2
  · intro hlo hpres
    obtain ⟨m, hm⟩ := local_search_find arr lo hi key hs hhi hlo hpres
    exact ⟨m, hm, (local_search_some arr lo hi key m hm).2⟩

/-- C4 witness: the amended contract at a concrete two-element window
holding the key. -/
theorem c4_local_search_amended_witness :
    ∃ m, not_stisla_local_search [0, 5, 7] 0 2 5 = some m ∧
      0 ≤ m ∧ m ≤ 2 ∧ [(0 : Int), 5, 7].getD m 0 = 5 :=
  (c4_local_search_amended [0, 5, 7] 0 2 5 (chainLEb_sound [0, 5, 7] rfl)
    (by norm_num)).2.2
    (by norm_num) ⟨1, by norm_num, by norm_num, rfl⟩

/-- C8: the chunked scan equals the naive linear scan modelled from the
spec, which returns the smallest matching index (so the groups-of-four
processing never changes which index is returned, and absence yields
NOT_FOUND). -/
theorem c8_chunked_equals_linear (arr : List Int) (key : Int) :
    not_stisla_chunked_search arr key = specLinearScan arr key :=
  chunked_eq_spec arr key

theorem bumpCounter_counter (t : AnchorTable) :
    (bumpCounter t).searches_performed = (t.searches_performed + 1) % U64 := rfl

/-- C1 (the claim is right, the code is wrong): on the sorted array
0..31 with key 31 — present at index 31 — a fresh (here: ephemeral) table
and tolerance 8, the engine seeds the two endpoint anchors, the anchor
lookup returns the last anchor position 1, and line 278 reads
`anchors[2]` of the 2-anchor table: an out-of-bounds read, undefined
behaviour, so the code cannot return the claimed index. -/
theorem c1_search_correctness_failing_input :
    not_stisla_search ((List.range 32).map (fun k => (k : Int))) 31 none 8 =
      .error .oobAnchorRead ∧
    ((List.range 32).map (fun k => (k : Int))).getD 31 0 = 31 ∧
    sortedLE ((List.range 32).map (fun k => (k : Int))) :=
  ⟨rfl, rfl, chainLEb_sound _ (by decide)⟩

/-- C5 counterexample: one public search (key 3, tolerance 8) on the
constant sorted array of 32 fives, from a freshly created table, seeds the
anchors `(5, 0)` and `(5, 31)` — a reachable table whose anchor values are
duplicated, so the anchor sequence is not strictly sorted. -/
theorem c5_strict_counterexample :
    not_stisla_search (List.replicate 32 (5 : Int)) 3 (some emptyTable) 8 =
      .ok (none, some ⟨[⟨5, 0⟩, ⟨5, 31⟩], 0, -1⟩) ∧
    Reachable ⟨[⟨5, 0⟩, ⟨5, 31⟩], 0, -1⟩ ∧
    ¬ strictSortedAnchors [⟨5, 0⟩, ⟨5, 31⟩] := by
  refine ⟨rfl, ?_, by norm_num [strictSortedAnchors]⟩
  exact Reachable.search emptyTable ⟨[⟨5, 0⟩, ⟨5, 31⟩], 0, -1⟩
    (List.replicate 32 (5 : Int)) 3 8 none Reachable.create
    (chainLEb_sound _ (by decide)) (by decide) rfl

/-- C5 (amended): after any sequence of public operations on sorted
arrays, the anchor sequence is sorted ascending by value, but only
non-strictly: seeding an array whose first and last elements are equal
produces two anchors with the same value. -/
theorem c5_anchor_sorted_amended (t : AnchorTable) (h : Reachable t) :
    sortedAnchors t.anchors := by
  rcases Reachable_inv t h with hemp | ⟨v1, v2, m, hanch, hv, _⟩
  · rw [hemp]
    exact List.chain'_nil
  · rw [hanch]
    exact List.chain'_cons.mpr ⟨hv, List.chain'_singleton _⟩

/-- C5 witness: the amended invariant at the freshly created table. -/
theorem c5_anchor_sorted_amended_witness : sortedAnchors emptyTable.anchors :=
  c5_anchor_sorted_amended emptyTable Reachable.create

/-- C6: through every sequence of public operations the anchor count never
exceeds the workload maximum (16 unconfigured/default, 12 telemetry, 8 ids,
20 offsets, 16 events): every reachable table holds 0 or 2 anchors, and
every workload cap is at least 8. -/
theorem c6_anchor_cap (t : AnchorTable) (h : Reachable t) :
    t.anchors.length ≤ workloadMaxAnchors t.workload_type := by
  have hmax := workloadMax_ge t.workload_type
  rcases Reachable_inv t h with hemp | ⟨v1, v2, m, hanch, _, _⟩
  · rw [hemp]
    simp
  · rw [hanch]
    simp only [List.length_cons, List.length_nil]
    omega

/-- C6 witness: the cap at the freshly created table. -/
theorem c6_anchor_cap_witness :
    emptyTable.anchors.length ≤ workloadMaxAnchors emptyTable.workload_type :=
  c6_anchor_cap emptyTable Reachable.create

/-- C7 counterexample: on the sorted array `-20..11` with key 5 (present
only at index 25), tolerance 8, a table holding the sorted anchors
`(1000, 20)` and `(2000, 31)`: the first call finds 25 and learns the
anchor `(5, 25)`; repeating the identical call on the resulting table
returns NOT_FOUND, because the learned anchor's index 25 exceeds the next
anchor's index 20 and the reset window `[25, 20]` is empty. -/
theorem c7_repeat_counterexample :
    not_stisla_search ((List.range 32).map (fun k => (k : Int) - 20)) 5
        (some ⟨[⟨1000, 20⟩, ⟨2000, 31⟩], 0, -1⟩) 8 =
      .ok (some 25, some ⟨[⟨5, 25⟩, ⟨1000, 20⟩, ⟨2000, 31⟩], 1, -1⟩) ∧
    not_stisla_search ((List.range 32).map (fun k => (k : Int) - 20)) 5
        (some ⟨[⟨5, 25⟩, ⟨1000, 20⟩, ⟨2000, 31⟩], 1, -1⟩) 8 =
      .ok (none, some ⟨[⟨5, 25⟩, ⟨1000, 20⟩, ⟨2000, 31⟩], 1, -1⟩) ∧
    sortedLE ((List.range 32).map (fun k => (k : Int) - 20)) :=
  ⟨rfl, rfl, chainLEb_sound _ (by decide)⟩

/-- C7 (amended): for every table actually reachable through the public
operations (and arrays within the physical `size_t` range), a repeated
identical search does return the same found index: reachable tables hold
the seeding anchors with left index 0, for which the prediction error of
any found index is within tolerance, so the first call mutates only the
seeding and the counter. -/
theorem c7_repeat_amended (t t' : AnchorTable) (arr : List Int) (key : Int)
    (tol : Nat) (j : Nat) (hr : Reachable t) (hsorted : sortedLE arr)
    (hlen : arr.length < U63)
    (h1 : not_stisla_search arr key (some t) tol = .ok (some j, some t')) :
    ∃ t'', not_stisla_search arr key (some t') tol = .ok (some j, some t'') := by
  rcases search_ok_cases arr key t tol (some j) t' h1 with
    ⟨_, hno, _⟩ | ⟨_, _, _, rfl⟩ | ⟨hn, pred, hsc, hrest⟩
  · exact Option.noConfusion hno
  · exact ⟨_, h1⟩
  · rcases hrest with ⟨hno, _⟩ | ⟨j0, hj0, ht'⟩
    · exact Option.noConfusion hno
    · have hjj : j = j0 := Option.some.inj hj0
      subst hjj
      obtain ⟨v1, v2, m, hanch, hv, hm⟩ :=
        seed_pair arr t hsorted hlen hn (Reachable_inv t hr)
      rw [hanch] at hsc
      have hdiff := searchCore_pair_diff arr key tol v1 v2 m hm j pred hsc
      rw [learn_of_close _ _ _ _ _ hdiff] at ht'
      have hanch2 : t'.anchors = [⟨v1, 0⟩, ⟨v2, m⟩] := by
        rw [ht', bumpCounter_anchors, hanch]
      have hne : t'.anchors ≠ [] := by
        rw [hanch2]
        exact List.cons_ne_nil _ _
      refine ⟨bumpCounter (not_stisla_learn_anchor t' (arr.getD j 0) j pred tol), ?_⟩
      unfold not_stisla_search
      dsimp only
      rw [if_neg (by omega), if_neg (by omega)]
      simp only [Option.getD_some]
      rw [seedTable_of_nonempty arr t' hne, hanch2, hsc]

/-- C7 witness: the amended statement applied to a first search from a
freshly created table on the sorted array 0..31 with key 5. -/
theorem c7_repeat_amended_witness :
    ∃ t'', not_stisla_search ((List.range 32).map (fun k => (k : Int))) 5
      (some ⟨[⟨0, 0⟩, ⟨31, 31⟩], 1, -1⟩) 8 = .ok (some 5, some t'') :=
  c7_repeat_amended emptyTable ⟨[⟨0, 0⟩, ⟨31, 31⟩], 1, -1⟩
    ((List.range 32).map (fun k => (k : Int))) 5 8 5 Reachable.create
    (chainLEb_sound _ (by decide)) (by decide) rfl

/-- C9 counterexample: a successful search on the 3-element array (the
small-array ChunkedScan path) returns index 1 but leaves the supplied
table's `searches_performed` counter unchanged at 0, contradicting the
claim that every successful search increments it. -/
theorem c9_counter_counterexample :
    not_stisla_search [1, 2, 3] 2 (some emptyTable) 8 =
      .ok (some 1, some emptyTable) ∧
    emptyTable.searches_performed = 0 :=
  ⟨rfl, rfl⟩

/-- C9 (amended): with a caller-supplied table, a successful search on an
array of length ≥ 32 increments `searches_performed` by exactly one (with
the `size_t` wrap), a NOT_FOUND search leaves it unchanged, and a search
on an array of length < 32 (the ChunkedScan path) returns before the
learning block and leaves the whole table unchanged, found or not. -/
theorem c9_counter_amended (arr : List Int) (key : Int) (tol : Nat)
    (t : AnchorTable) (res : Option Nat) (t' : AnchorTable)
    (h : not_stisla_search arr key (some t) tol = .ok (res, some t')) :
    (32 ≤ arr.length →
      ((∃ j, res = some j) →
        t'.searches_performed = (t.searches_performed + 1) % U64) ∧
      (res = none → t'.searches_performed = t.searches_performed)) ∧
    (arr.length < 32 → t' = t) := by
  rcases search_ok_cases arr key t tol res t' h with
    ⟨hz, _, rfl⟩ | ⟨_, h32, _, rfl⟩ | ⟨hn, pred, hsc, hrest⟩
  · exact ⟨fun hcon => absurd hcon (by omega), fun _ => rfl⟩
  · exact ⟨fun hcon => absurd hcon (by omega), fun _ => rfl⟩
  · refine ⟨fun _ => ⟨?_, ?_⟩, fun hcon => absurd hcon (by omega)⟩
    · rintro ⟨j, hj⟩
      rcases hrest with ⟨hno, _⟩ | ⟨j0, hj0, ht'⟩
      · rw [hno] at hj
        exact Option.noConfusion hj
      · rw [ht', bumpCounter_counter, learn_counter, seedTable_counter]
    · intro hnone
      rcases hrest with ⟨_, rfl⟩ | ⟨j0, hj0, _⟩
      · exact seedTable_counter arr t
      · rw [hnone] at hj0
        exact Option.noConfusion hj0

/-- C9 witness: a successful length-32 search from a fresh table increments
the counter from 0 to 1. -/
theorem c9_counter_amended_witness :
    (⟨[⟨0, 0⟩, ⟨31, 31⟩], 1, -1⟩ : AnchorTable).searches_performed =
      (emptyTable.searches_performed + 1) % U64 :=
  ((c9_counter_amended ((List.range 32).map (fun k => (k : Int))) 5 8
    emptyTable (some 5) ⟨[⟨0, 0⟩, ⟨31, 31⟩], 1, -1⟩ rfl).1 (by decide)).1 ⟨5, rfl⟩

/-- C10: whenever the search returns a found index (not NOT_FOUND) — for
any array, sorted or not, any table, any tolerance — the index is in
bounds and the element there equals the key; every execution whose result
is defined never fabricates an index. -/
theorem c10_search_sound (arr : List Int) (key : Int)
    (table : Option AnchorTable) (tol : Nat) (j : Nat)
    (t2 : Option AnchorTable)
    (h : not_stisla_search arr key table tol = .ok (some j, t2)) :
    j < arr.length ∧ arr.getD j 0 = key := by
  rcases search_ok_res arr key table tol (some j) t2 h with
    ⟨_, hno⟩ | ⟨_, _, hres⟩ | ⟨_, pred, hsc⟩
  · exact Option.noConfusion hno
  · have hspec : specLinearScan arr key = some j := by
      rw [← chunked_eq_spec]
      exact hres.symm
    obtain ⟨h1, h2, _⟩ := specLinearScan_some key arr j hspec
    exact ⟨h1, h2⟩
  · exact searchCore_found arr key tol _ j pred hsc

/-- C10 witness: the soundness statement at a concrete found search. -/
theorem c10_search_sound_witness :
    (1 : Nat) < [(1 : Int), 2, 3].length ∧ [(1 : Int), 2, 3].getD 1 0 = 2 :=
  c10_search_sound [1, 2, 3] 2 none 0 1 none rfl

end NotStisla
